import Mathlib

/-!
Verification development for the governor rate-limiter core.

Time model: instants of the production clocks (std Instant and SystemTime,
both backed by a Timespec of i64 seconds + nanoseconds on the reference
platform) are embedded as natural numbers of nanoseconds, normalized so
that the minimum representable instant is 0; `instantMaxNanos` is the width
of the representable range in nanoseconds.  `Nanos` durations (u64
nanosecond counts in the source) are embedded as `Nat`.
-/

/-- Width of the representable instant range of the production clock
backends, in nanoseconds: the Timespec second field is an i64, so the
range spans 2^64 - 1 whole seconds plus the sub-second nanoseconds. -/
def instantMaxNanos : Nat := (2 ^ 64 - 1) * 1000000000 + 999999999

namespace Instant

/-- From src/clock/with_std.rs, Reference for Instant:
if earlier < *self then (*self - earlier) else the zero duration. -/
def duration_since (self earlier : Nat) : Nat :=
  if earlier < self then self - earlier else 0

/-- From src/clock/with_std.rs, Reference for Instant:
self.checked_sub(duration).unwrap_or(*self) — the subtraction when it
stays in the representable range, otherwise the instant itself. -/
def saturating_sub (self d : Nat) : Nat :=
  if d ≤ self then self - d else self

/-- From src/clock/with_std.rs, Add for Instant: delegates to the
standard library instant addition, which is a checked add followed by
expect — it panics when the sum leaves the representable range.  The
panic is embedded as `none`. -/
def add (self d : Nat) : Option Nat :=
  if self + d ≤ instantMaxNanos then some (self + d) else none

end Instant

namespace SystemTime

/-- From src/clock/with_std.rs, Reference for SystemTime:
self.duration_since(earlier).unwrap_or(zero) — the standard library
duration_since succeeds exactly when earlier ≤ self; on failure (a
clock adjustment moved time backwards) the zero duration is used. -/
def duration_since (self earlier : Nat) : Nat :=
  if earlier ≤ self then self - earlier else 0

/-- From src/clock/with_std.rs, Reference for SystemTime:
self.checked_sub(duration).unwrap_or(*self). -/
def saturating_sub (self d : Nat) : Nat :=
  if d ≤ self then self - d else self

/-- From src/clock/with_std.rs, Add for SystemTime: delegates to the
standard library addition, a checked add followed by expect — panics
(embedded as `none`) when the sum leaves the representable range. -/
def add (self d : Nat) : Option Nat :=
  if self + d ≤ instantMaxNanos then some (self + d) else none

end SystemTime

/-- The two denial kinds of the decision API (spec §7): a transient
denial carrying the earliest retry instant, and the permanent
incapacity condition.  The GCRA engine produces the earliest instant
relative to the limiter start; the facade converts it to absolute. -/
inductive NegativeDecision where
  | notUntil (earliest : Nat) : NegativeDecision
  | insufficientCapacity : NegativeDecision
deriving DecidableEq, Repr

/-- Modelled from the spec: the GCRA engine (spec §4.1); gcra.rs is not
under src/.  Given parameters (t, tau), the previous tat, the relative
time now and a request of n cells: a request whose cost t × n exceeds
tau can never succeed (permanent incapacity, reported for any state);
otherwise tat_candidate = max(previous_tat, now),
new_tat = tat_candidate + t × n, earliest_allowed = new_tat − tau
(saturating Nanos subtraction), and the cell conforms exactly when
now ≥ earliest_allowed, in which case new_tat is the state to persist. -/
def gcraTestN (t tau tat now n : Nat) : Except NegativeDecision Nat :=
  let cost := t * n
  if tau < cost then
    .error .insufficientCapacity
  else
    let newTat := max tat now + cost
    let earliest := newTat - tau
    if now < earliest then .error (.notUntil earliest)
    else .ok newTat

/-- Modelled from the spec: the single-cell GCRA path (spec §4.1 with
n = 1, cost = t); gcra.rs is not under src/. -/
def gcraTest (t tau tat now : Nat) : Except NegativeDecision Nat :=
  if tau < t then
    .error .insufficientCapacity
  else
    let newTat := max tat now + t
    let earliest := newTat - tau
    if now < earliest then .error (.notUntil earliest)
    else .ok newTat

/-- Modelled from the spec and the doc comment of
StateStore::measure_and_replace in src/state.rs (the AtomicU64
implementation is not under src/): the net effect of one atomic
read-check-and-conditionally-replace on a single state cell.  The
closure Err leaves the cell untouched and passes the error through;
the closure Ok commits the new state and returns the result. -/
def measure_and_replace {T E : Type} (st : Nat) (f : Nat → Except E (T × Nat)) :
    Except E T × Nat :=
  match f st with
  | .ok (v, new) => (.ok v, new)
  | .error e => (.error e, st)

/-- The rate limiter facade (struct RateLimiter in src/state.rs binds a
GCRA configuration, a state store and a start reference; the GCRA
parameters t, tau are modelled from the spec since gcra.rs is not under
src/).  The keyed store is embedded as a total map from keys to tat
values, 0 being the never-used initial state. -/
structure RateLimiter (K : Type) where
  t : Nat
  tau : Nat
  start : Nat
  state : K → Nat

/-- Modelled from the spec: check_n (spec §4.4); the facade source is
not under src/.  Computes now from the clock relative to the limiter
start, runs the GCRA engine for n cells through the store's atomic
update, and converts a transient denial's earliest instant back to
absolute time via the start reference. -/
def check_n {K : Type} [DecidableEq K] (lim : RateLimiter K) (key : K)
    (nowAbs : Nat) (n : Nat) : Except NegativeDecision Unit × RateLimiter K :=
  let now := Instant.duration_since nowAbs lim.start
  let r := measure_and_replace (lim.state key)
    (fun tat => (gcraTestN lim.t lim.tau tat now n).map fun newTat => ((), newTat))
  match r.1 with
  | .ok v => (.ok v, { lim with state := Function.update lim.state key r.2 })
  | .error (.notUntil earliest) => (.error (.notUntil (lim.start + earliest)), lim)
  | .error .insufficientCapacity => (.error .insufficientCapacity, lim)

/-- Modelled from the spec: check (spec §4.4), the single-cell decision
operation, built on the single-cell GCRA path. -/
def check {K : Type} [DecidableEq K] (lim : RateLimiter K) (key : K)
    (nowAbs : Nat) : Except NegativeDecision Unit × RateLimiter K :=
  let now := Instant.duration_since nowAbs lim.start
  let r := measure_and_replace (lim.state key)
    (fun tat => (gcraTest lim.t lim.tau tat now).map fun newTat => ((), newTat))
  match r.1 with
  | .ok v => (.ok v, { lim with state := Function.update lim.state key r.2 })
  | .error (.notUntil earliest) => (.error (.notUntil (lim.start + earliest)), lim)
  | .error .insufficientCapacity => (.error .insufficientCapacity, lim)

/-- Sequentially issue k single-cell check calls against the same key at
the same absolute time, threading the limiter state, and collect the
outcomes in order. -/
def runChecks {K : Type} [DecidableEq K] (lim : RateLimiter K) (key : K)
    (nowAbs : Nat) : Nat → List (Except NegativeDecision Unit) × RateLimiter K
  | 0 => ([], lim)
  | Nat.succ k =>
      let r := check lim key nowAbs
      let rest := runChecks r.2 key nowAbs k
      (r.1 :: rest.1, rest.2)

/-!
Concurrent model of the state store's lock-free optimistic update
protocol (spec §4.2 and the doc comment of StateStore::measure_and_replace
in src/state.rs; the AtomicU64 implementation is not under src/).  Each
caller of measure_and_replace runs a loop: load the shared cell, apply
the decision closure f to the snapshot, and if f succeeds attempt a
compare-and-swap — committing only when the cell still holds the
snapshot, otherwise retrying from a fresh load; if f fails the error is
returned without touching the cell.  A configuration is the shared cell
value paired with the multiset of caller states, and a step is one
atomic action of one caller, so traces range over all interleavings.
-/

/-- The control state of one caller inside the optimistic update loop. -/
inductive Tstate (T E : Type) where
  | running : Tstate T E
  | loaded (snapshot : Nat) : Tstate T E
  | doneOk (v : T) : Tstate T E
  | doneErr (e : E) : Tstate T E
deriving DecidableEq, Repr

namespace Tstate

/-- A caller that finished with a committed (conforming) decision. -/
def isOk {T E : Type} : Tstate T E → Bool
  | .doneOk _ => true
  | _ => false

/-- A caller whose call has returned. -/
def isDone {T E : Type} : Tstate T E → Bool
  | .doneOk _ => true
  | .doneErr _ => true
  | _ => false

end Tstate

/-- One atomic action of one caller of measure_and_replace, with the
decision closure f: load the shared cell into a snapshot; commit by
compare-and-swap when the cell still equals the snapshot; retry from a
fresh load on a lost race; or return f's error without any update. -/
inductive casStep {T E : Type} (f : Nat → Except E (T × Nat)) :
    Nat × Multiset (Tstate T E) → Nat × Multiset (Tstate T E) → Prop where
  | load (σ : Nat) (m : Multiset (Tstate T E)) :
      casStep f (σ, Tstate.running ::ₘ m) (σ, Tstate.loaded σ ::ₘ m)
  | commit (σ σ' : Nat) (v : T) (m : Multiset (Tstate T E))
      (h : f σ = .ok (v, σ')) :
      casStep f (σ, Tstate.loaded σ ::ₘ m) (σ', Tstate.doneOk v ::ₘ m)
  | casfail (σ s σ' : Nat) (v : T) (m : Multiset (Tstate T E))
      (hne : s ≠ σ) (h : f s = .ok (v, σ')) :
      casStep f (σ, Tstate.loaded s ::ₘ m) (σ, Tstate.running ::ₘ m)
  | errstep (σ s : Nat) (e : E) (m : Multiset (Tstate T E))
      (h : f s = .error e) :
      casStep f (σ, Tstate.loaded s ::ₘ m) (σ, Tstate.doneErr e ::ₘ m)

/-- The number of callers that finished with a committed decision. -/
def okCount {T E : Type} (m : Multiset (Tstate T E)) : Nat :=
  Multiset.countP (fun x => Tstate.isOk x = true) m

/-- The shared cell values producible from a by successive applications
of f, each to the value it replaces: b is reachable from a through a
chain of committed updates. -/
inductive fChain {T E : Type} (f : Nat → Except E (T × Nat)) : Nat → Nat → Prop where
  | refl (a : Nat) : fChain f a a
  | step {a b c : Nat} {v : T} (hab : fChain f a b) (h : f b = .ok (v, c)) :
      fChain f a c

/-- The decision closure that check hands to the store for one cell at
relative time 0 (all callers issue instantaneously at the idle start),
for a quota of emission interval t and burst size B. -/
def gcraClosure (t B : Nat) : Nat → Except NegativeDecision (Unit × Nat) :=
  fun tat => (gcraTest t (t * B) tat 0).map fun newTat => ((), newTat)

/-- Invariant of the concurrent burst-exhaustion scenario: the shared
cell always holds t times the number of committed callers, never more
than B callers commit, every held snapshot is an earlier cell value,
and a denial can only have been issued once the burst was exhausted. -/
def gcraInv (t B : Nat) (c : Nat × Multiset (Tstate Unit NegativeDecision)) : Prop :=
  c.1 = t * okCount c.2 ∧
  okCount c.2 ≤ B ∧
  (∀ s, Tstate.loaded s ∈ c.2 → ∃ j, j ≤ okCount c.2 ∧ s = t * j) ∧
  ((∃ e, Tstate.doneErr e ∈ c.2) → okCount c.2 = B)

/-!  Theorems. -/

/-- C5: for both production clock reference types, duration_since
returns exactly self − earlier when earlier is strictly earlier than
self, and returns zero whenever earlier is equal to or later than self
(clock regression); it is total, never negative. -/
theorem duration_since_regression_immunity (a b : Nat) :
    (b < a → Instant.duration_since a b = a - b ∧ SystemTime.duration_since a b = a - b) ∧
    (a ≤ b → Instant.duration_since a b = 0 ∧ SystemTime.duration_since a b = 0) := by
  constructor
  · intro h
    constructor
    · simp [Instant.duration_since, h]
    · simp [SystemTime.duration_since, Nat.le_of_lt h]
  · intro h
    constructor
    · simp [Instant.duration_since, Nat.not_lt.mpr h]
    · rcases Nat.lt_or_ge b a with hba | hba
      · exact absurd (Nat.lt_of_lt_of_le hba h) (Nat.lt_irrefl b)
      · simp [SystemTime.duration_since, Nat.sub_eq_zero_of_le]
        intro
        exact Nat.sub_eq_zero_of_le h

theorem duration_since_regression_immunity_witness :
    Instant.duration_since 7 3 = 4 ∧ SystemTime.duration_since 3 7 = 0 :=
  ⟨((duration_since_regression_immunity 7 3).1 (by decide)).1,
   ((duration_since_regression_immunity 3 7).2 (by decide)).2⟩

/-- C10: for both production instant types, saturating_sub returns
i − d when the subtraction stays representable, and returns i itself
unchanged (not the minimum representable instant) when the subtraction
would underflow. -/
theorem saturating_sub_underflow_identity (i d : Nat) :
    (d ≤ i → Instant.saturating_sub i d = i - d ∧ SystemTime.saturating_sub i d = i - d) ∧
    (i < d → Instant.saturating_sub i d = i ∧ SystemTime.saturating_sub i d = i) := by
  constructor
  · intro h
    exact ⟨by simp [Instant.saturating_sub, h], by simp [SystemTime.saturating_sub, h]⟩
  · intro h
    have h' : ¬ d ≤ i := Nat.not_le.mpr h
    exact ⟨by simp [Instant.saturating_sub, h'], by simp [SystemTime.saturating_sub, h']⟩

theorem saturating_sub_underflow_identity_witness :
    Instant.saturating_sub 9 4 = 5 ∧ SystemTime.saturating_sub 4 9 = 4 :=
  ⟨((saturating_sub_underflow_identity 9 4).1 (by decide)).1,
   ((saturating_sub_underflow_identity 4 9).2 (by decide)).2⟩

/-- C6 counterexample: instant addition is not total-and-saturating.
At the maximum representable instant, adding one nanosecond does not
saturate to the maximum: the source delegates to the standard library
checked add + expect, which panics (embedded as none).  Also, adding a
zero duration yields the same instant, not a strictly later one. -/
theorem instant_add_not_saturating :
    Instant.add instantMaxNanos 1 = none ∧
    SystemTime.add instantMaxNanos 1 = none ∧
    Instant.add 5 0 = some 5 := by
  refine ⟨?_, ?_, ?_⟩
  · simp [Instant.add]
  · simp [SystemTime.add]
  · simp [Instant.add, instantMaxNanos]

/-- C6 amended: for both production instant types, whenever i + d stays
within the representable range the addition returns exactly the instant
i + d, which is never earlier than i (and strictly later when d ≥ 1);
when the sum would exceed the representable maximum the addition panics
(checked add + expect) instead of saturating. -/
theorem instant_add_in_range (i d : Nat) (h : i + d ≤ instantMaxNanos) :
    Instant.add i d = some (i + d) ∧ SystemTime.add i d = some (i + d) ∧
    i ≤ i + d ∧ (1 ≤ d → i < i + d) := by
  refine ⟨by simp [Instant.add, h], by simp [SystemTime.add, h],
    Nat.le_add_right i d, fun hd => ?_⟩
  exact Nat.lt_add_of_pos_right (Nat.lt_of_lt_of_le Nat.zero_lt_one hd)

theorem instant_add_in_range_witness :
    Instant.add 5 7 = some 12 ∧ SystemTime.add 5 7 = some 12 ∧
    (5 : Nat) ≤ 12 ∧ (1 ≤ 7 → (5 : Nat) < 12) :=
  instant_add_in_range 5 7 (by decide)

/-- C1: for all GCRA parameters (t, tau), previous tat, relative time
now and request size n ≥ 1, the engine decides conforming — returning
new_tat = max(previous_tat, now) + t × n as the state to persist —
exactly when now ≥ earliest_allowed = new_tat − tau, and the persisted
state on a conforming decision is always that new_tat. -/
theorem gcra_engine_decision (t tau tat now n : Nat) (_hn : 1 ≤ n) :
    (gcraTestN t tau tat now n = .ok (max tat now + t * n) ↔
      max tat now + t * n - tau ≤ now) ∧
    (∀ nt, gcraTestN t tau tat now n = .ok nt → nt = max tat now + t * n) := by
  constructor
  · constructor
    · intro h
      unfold gcraTestN at h
      by_cases hcap : tau < t * n
      · simp [hcap] at h
      · by_cases hlate : now < max tat now + t * n - tau
        · simp [hcap, hlate] at h
        · exact Nat.not_lt.mp hlate
    · intro h
      have hcap : ¬ tau < t * n := by
        intro hcap
        have h1 : max tat now + t * n - tau ≥ now + 1 := by
          have h2 : now + t * n ≤ max tat now + t * n :=
            Nat.add_le_add_right (Nat.le_max_right tat now) _
          have h3 : now + (t * n - tau) ≤ max tat now + t * n - tau := by
            omega
          omega
        omega
      have hlate : ¬ now < max tat now + t * n - tau := Nat.not_lt.mpr h
      unfold gcraTestN
      simp [hcap, hlate]
  · intro nt h
    unfold gcraTestN at h
    by_cases hcap : tau < t * n
    · simp [hcap] at h
    · by_cases hlate : now < max tat now + t * n - tau
      · simp [hcap, hlate] at h
      · simp [hcap, hlate] at h
        omega

theorem gcra_engine_decision_witness :
    gcraTestN 2 4 0 3 1 = .ok (max 0 3 + 2 * 1) :=
  (gcra_engine_decision 2 4 0 3 1 (by decide)).1.mpr (by decide)

/-- Helper: the GCRA engine's transient-denial case, characterised by
its arithmetic conditions. -/
lemma gcraTestN_err_of (t tau tat now n : Nat) (hcap : t * n ≤ tau)
    (hlate : now < max tat now + t * n - tau) :
    gcraTestN t tau tat now n = .error (.notUntil (max tat now + t * n - tau)) := by
  unfold gcraTestN
  simp [Nat.not_lt.mpr hcap, hlate]

/-- Helper: check_n on a transient GCRA denial returns the converted
instant and the untouched limiter. -/
lemma check_n_of_err {K : Type} [DecidableEq K] (lim : RateLimiter K) (key : K)
    (nowAbs n e : Nat)
    (h : gcraTestN lim.t lim.tau (lim.state key)
      (Instant.duration_since nowAbs lim.start) n = .error (.notUntil e)) :
    check_n lim key nowAbs n = (.error (.notUntil (lim.start + e)), lim) := by
  unfold check_n measure_and_replace
  simp [h, Except.map]

/-- Helper: check_n on a permanent-incapacity GCRA outcome passes it
through and leaves the limiter untouched. -/
lemma check_n_of_cap {K : Type} [DecidableEq K] (lim : RateLimiter K) (key : K)
    (nowAbs n : Nat)
    (h : gcraTestN lim.t lim.tau (lim.state key)
      (Instant.duration_since nowAbs lim.start) n = .error .insufficientCapacity) :
    check_n lim key nowAbs n = (.error .insufficientCapacity, lim) := by
  unfold check_n measure_and_replace
  simp [h, Except.map]

/-- Helper: the single-cell GCRA path agrees with the n-cell engine at
n = 1, hence check agrees with check_n at one cell. -/
lemma check_eq_check_n_one_aux {K : Type} [DecidableEq K] (lim : RateLimiter K)
    (key : K) (nowAbs : Nat) :
    check lim key nowAbs = check_n lim key nowAbs 1 := by
  have h : ∀ a b tat now, gcraTest a b tat now = gcraTestN a b tat now 1 := by
    intro a b tat now
    unfold gcraTest gcraTestN
    simp
  unfold check check_n
  simp only [h]

/-- C2: a check_n call (and, at n = 1, a check call) whose GCRA
decision is a transient denial leaves the key's persisted state (indeed
the whole limiter) exactly as it was, and the negative outcome's
earliest-retry instant is earliest_allowed
= max(previous_tat, now) + t × n − tau converted back to absolute time
by adding the limiter's start reference. -/
theorem check_n_nonconforming_unchanged {K : Type} [DecidableEq K]
    (lim : RateLimiter K) (key : K) (nowAbs n : Nat)
    (hcap : lim.t * n ≤ lim.tau)
    (hlate : Instant.duration_since nowAbs lim.start <
      max (lim.state key) (Instant.duration_since nowAbs lim.start) + lim.t * n - lim.tau) :
    check_n lim key nowAbs n =
      (.error (.notUntil (lim.start +
        (max (lim.state key) (Instant.duration_since nowAbs lim.start)
          + lim.t * n - lim.tau))), lim) ∧
    (n = 1 → check lim key nowAbs =
      (.error (.notUntil (lim.start +
        (max (lim.state key) (Instant.duration_since nowAbs lim.start)
          + lim.t * n - lim.tau))), lim)) := by
  have hmain := check_n_of_err lim key nowAbs n _ (gcraTestN_err_of _ _ _ _ _ hcap hlate)
  refine ⟨hmain, fun h1 => ?_⟩
  subst h1
  rw [check_eq_check_n_one_aux]
  exact hmain

theorem check_n_nonconforming_unchanged_witness :
    check_n (⟨2, 4, 5, fun _ => 10⟩ : RateLimiter Nat) 0 6 1 =
      (.error (.notUntil 13), (⟨2, 4, 5, fun _ => 10⟩ : RateLimiter Nat)) ∧
    check (⟨2, 4, 5, fun _ => 10⟩ : RateLimiter Nat) 0 6 =
      (.error (.notUntil 13), (⟨2, 4, 5, fun _ => 10⟩ : RateLimiter Nat)) := by
  have h := check_n_nonconforming_unchanged (⟨2, 4, 5, fun _ => 10⟩ : RateLimiter Nat)
    0 6 1 (by decide) (by decide)
  exact ⟨h.1, h.2 rfl⟩

/-- C3: for every key, every limiter state (a freshly constructed key
included) and every n strictly greater than the burst size B of the
quota (whose derived parameters satisfy tau = t × B with t ≥ 1),
check_n returns the permanent-incapacity outcome — never success and
never a transient denial — and leaves the limiter untouched. -/
theorem check_n_insufficient_capacity {K : Type} [DecidableEq K]
    (lim : RateLimiter K) (key : K) (nowAbs n B : Nat)
    (ht : 1 ≤ lim.t) (htau : lim.tau = lim.t * B) (hn : B < n) :
    check_n lim key nowAbs n = (.error .insufficientCapacity, lim) := by
  have hcap : lim.tau < lim.t * n := by
    rw [htau]
    exact mul_lt_mul_of_pos_left hn (Nat.lt_of_lt_of_le Nat.zero_lt_one ht)
  apply check_n_of_cap
  unfold gcraTestN
  simp [hcap]

theorem check_n_insufficient_capacity_witness :
    check_n (⟨1, 2, 0, fun _ => 0⟩ : RateLimiter Nat) 0 0 3 =
      (.error .insufficientCapacity, (⟨1, 2, 0, fun _ => 0⟩ : RateLimiter Nat)) :=
  check_n_insufficient_capacity (⟨1, 2, 0, fun _ => 0⟩ : RateLimiter Nat)
    0 0 3 2 (by decide) (by decide) (by decide)

/-- C8: for every key, absolute time and limiter state, check returns
exactly the same outcome and leaves the limiter in exactly the same
state as check_n with one cell. -/
theorem check_eq_check_n_one {K : Type} [DecidableEq K] (lim : RateLimiter K)
    (key : K) (nowAbs : Nat) :
    check lim key nowAbs = check_n lim key nowAbs 1 :=
  check_eq_check_n_one_aux lim key nowAbs

/-- Helper: the single-cell GCRA conforming case. -/
lemma gcraTest_ok_of (t tau tat now : Nat) (hcap : t ≤ tau)
    (hok : max tat now + t - tau ≤ now) :
    gcraTest t tau tat now = .ok (max tat now + t) := by
  unfold gcraTest
  simp [Nat.not_lt.mpr hcap, Nat.not_lt.mpr hok]

/-- Helper: the single-cell GCRA transient-denial case. -/
lemma gcraTest_err_of (t tau tat now : Nat) (hcap : t ≤ tau)
    (hlate : now < max tat now + t - tau) :
    gcraTest t tau tat now = .error (.notUntil (max tat now + t - tau)) := by
  unfold gcraTest
  simp [Nat.not_lt.mpr hcap, hlate]

/-- Helper: check on a conforming single-cell GCRA decision commits the
new tat for the key and succeeds. -/
lemma check_of_ok {K : Type} [DecidableEq K] (lim : RateLimiter K) (key : K)
    (nowAbs nt : Nat)
    (h : gcraTest lim.t lim.tau (lim.state key)
      (Instant.duration_since nowAbs lim.start) = .ok nt) :
    check lim key nowAbs =
      (.ok (), { lim with state := Function.update lim.state key nt }) := by
  unfold check measure_and_replace
  simp [h, Except.map]

/-- Helper: check on a transient single-cell GCRA denial returns the
converted instant and the untouched limiter. -/
lemma check_of_err {K : Type} [DecidableEq K] (lim : RateLimiter K) (key : K)
    (nowAbs e : Nat)
    (h : gcraTest lim.t lim.tau (lim.state key)
      (Instant.duration_since nowAbs lim.start) = .error (.notUntil e)) :
    check lim key nowAbs = (.error (.notUntil (lim.start + e)), lim) := by
  unfold check measure_and_replace
  simp [h, Except.map]

/-- Helper for C7, by induction on the number of remaining calls: if
the key's effective arrival candidate stands j emission intervals after
now and j + k = B, then k further instantaneous single-cell checks all
conform and the (k+1)th is denied with relative earliest-retry now + t. -/
lemma runChecks_burst {K : Type} [DecidableEq K] (B : Nat) (k : Nat) :
    ∀ (j : Nat) (lim : RateLimiter K) (key : K) (nowAbs : Nat),
    1 ≤ lim.t → lim.tau = lim.t * B → 1 ≤ B → j + k = B →
    max (lim.state key) (Instant.duration_since nowAbs lim.start)
      = Instant.duration_since nowAbs lim.start + lim.t * j →
    (runChecks lim key nowAbs (k + 1)).1
      = List.replicate k (.ok ()) ++
        [.error (.notUntil (lim.start +
          (Instant.duration_since nowAbs lim.start + lim.t)))] := by
  induction k with
  | zero =>
    intro j lim key nowAbs ht htau hB hjk hstate
    have hj : j = B := by omega
    rw [hj] at hstate
    have hcap : lim.t ≤ lim.tau := by
      rw [htau]
      calc lim.t = lim.t * 1 := by rw [Nat.mul_one]
        _ ≤ lim.t * B := Nat.mul_le_mul (Nat.le_refl _) hB
    have he : max (lim.state key) (Instant.duration_since nowAbs lim.start)
        + lim.t - lim.tau
        = Instant.duration_since nowAbs lim.start + lim.t := by
      rw [hstate, htau]
      omega
    have herr : gcraTest lim.t lim.tau (lim.state key)
        (Instant.duration_since nowAbs lim.start)
        = .error (.notUntil (Instant.duration_since nowAbs lim.start + lim.t)) := by
      rw [gcraTest_err_of _ _ _ _ hcap (by rw [he]; omega), he]
    simp [runChecks, check_of_err lim key nowAbs _ herr]
  | succ k ih =>
    intro j lim key nowAbs ht htau hB hjk hstate
    have hcap : lim.t ≤ lim.tau := by
      rw [htau]
      calc lim.t = lim.t * 1 := by rw [Nat.mul_one]
        _ ≤ lim.t * B := Nat.mul_le_mul (Nat.le_refl _) hB
    have hmul : lim.t * j + lim.t ≤ lim.t * B := by
      rw [← Nat.mul_succ]
      exact Nat.mul_le_mul (Nat.le_refl _) (by omega)
    have hok : gcraTest lim.t lim.tau (lim.state key)
        (Instant.duration_since nowAbs lim.start)
        = .ok (Instant.duration_since nowAbs lim.start + lim.t * j + lim.t) := by
      have h1 := gcraTest_ok_of lim.t lim.tau (lim.state key)
        (Instant.duration_since nowAbs lim.start) hcap
        (by rw [hstate, htau]; omega)
      rw [h1, hstate]
    set nt : Nat := Instant.duration_since nowAbs lim.start + lim.t * j + lim.t with hnt
    set lim' : RateLimiter K := { lim with state := Function.update lim.state key nt } with hlim'
    have hstep : check lim key nowAbs = (.ok (), lim') :=
      check_of_ok lim key nowAbs nt hok
    have hstate' : max (lim'.state key)
        (Instant.duration_since nowAbs lim'.start)
        = Instant.duration_since nowAbs lim'.start + lim'.t * (j + 1) := by
      have h1 : lim'.state key = nt := by
        rw [hlim']
        simp
      have h2 : lim'.start = lim.start := by rw [hlim']
      have h3 : lim'.t = lim.t := by rw [hlim']
      rw [h1, h2, h3, hnt, Nat.mul_succ]
      omega
    have hrec := ih (j + 1) lim' key nowAbs (by rw [hlim']; exact ht)
      (by rw [hlim']; exact htau) hB (by omega) hstate'
    have hout : (runChecks lim key nowAbs (k + 1 + 1)).1
        = Except.ok () :: (runChecks lim' key nowAbs (k + 1)).1 := by
      show (runChecks lim key nowAbs (Nat.succ (k + 1))).1
        = Except.ok () :: (runChecks lim' key nowAbs (k + 1)).1
      simp [runChecks, hstep]
    rw [hout, hrec]
    have h2 : lim'.start = lim.start := by rw [hlim']
    rw [h2]
    have h3 : lim'.t = lim.t := by rw [hlim']
    rw [h3]
    rfl

/-- C7: for a quota of burst size B (GCRA parameters t ≥ 1 and
tau = t × B) and an idle, never-used key, B + 1 instantaneous
single-cell requests admit exactly the first B and deny the (B+1)th,
whose reported earliest-retry instant is the request time plus the
replenishment interval t of one cell. -/
theorem burst_exhaustion {K : Type} [DecidableEq K] (lim : RateLimiter K)
    (key : K) (nowAbs B : Nat) (ht : 1 ≤ lim.t) (hB : 1 ≤ B)
    (htau : lim.tau = lim.t * B) (hidle : lim.state key = 0)
    (hstart : lim.start ≤ nowAbs) :
    (runChecks lim key nowAbs (B + 1)).1
      = List.replicate B (.ok ()) ++ [.error (.notUntil (nowAbs + lim.t))] := by
  have h0 : max (lim.state key) (Instant.duration_since nowAbs lim.start)
      = Instant.duration_since nowAbs lim.start + lim.t * 0 := by
    rw [hidle, Nat.mul_zero, Nat.add_zero]
    exact Nat.max_eq_right (Nat.zero_le _)
  have h := runChecks_burst B B 0 lim key nowAbs ht htau hB (by omega) h0
  rw [h]
  have hdur : lim.start + (Instant.duration_since nowAbs lim.start + lim.t)
      = nowAbs + lim.t := by
    unfold Instant.duration_since
    by_cases hc : lim.start < nowAbs
    · simp only [hc, if_true]
      omega
    · have : lim.start = nowAbs := Nat.le_antisymm hstart (Nat.not_lt.mp hc)
      simp [hc, this]
  rw [hdur]

theorem burst_exhaustion_witness :
    (runChecks (⟨2, 6, 5, fun _ => 0⟩ : RateLimiter Nat) 0 9 4).1
      = List.replicate 3 (.ok ()) ++ [.error (.notUntil 11)] :=
  burst_exhaustion (⟨2, 6, 5, fun _ => 0⟩ : RateLimiter Nat) 0 9 3
    (by decide) (by decide) (by decide) (by decide) (by decide)

/-- Helper: okCount over a cons. -/
lemma okCount_cons {T E : Type} (x : Tstate T E) (m : Multiset (Tstate T E)) :
    okCount (x ::ₘ m) = okCount m + (if Tstate.isOk x = true then 1 else 0) :=
  Multiset.countP_cons _ x m

/-- Helper: every step of the optimistic update protocol preserves the
number of callers. -/
lemma casStep_card {T E : Type} {f : Nat → Except E (T × Nat)}
    {c c' : Nat × Multiset (Tstate T E)} (hstep : casStep f c c') :
    Multiset.card c'.2 = Multiset.card c.2 := by
  cases hstep <;> simp

/-- Helper: the full case analysis of the one-cell decision closure at
relative time 0 for a quota with t ≥ 1 cost and burst B ≥ 1: the cell
conforms, advancing the tat by one emission interval, exactly while the
tat is within the burst tolerance, and is otherwise denied. -/
lemma gcraClosure_cases (t B tat : Nat) (hB : 1 ≤ B) :
    (tat + t ≤ t * B ∧ gcraClosure t B tat = .ok ((), tat + t)) ∨
    (t * B < tat + t ∧
      gcraClosure t B tat = .error (.notUntil (tat + t - t * B))) := by
  have hcap : ¬ t * B < t := by
    have : t * 1 ≤ t * B := Nat.mul_le_mul (Nat.le_refl _) hB
    omega
  by_cases h : tat + t ≤ t * B
  · left
    refine ⟨h, ?_⟩
    unfold gcraClosure gcraTest
    have hmax : max tat 0 = tat := Nat.max_eq_left (Nat.zero_le _)
    simp [hcap, hmax, Nat.sub_eq_zero_of_le h, Except.map]
  · right
    refine ⟨by omega, ?_⟩
    unfold gcraClosure gcraTest
    have hmax : max tat 0 = tat := Nat.max_eq_left (Nat.zero_le _)
    have hlt : 0 < tat + t - t * B := by omega
    simp [hcap, hmax, hlt, Except.map]

/-- Helper: okCount ignores a running caller. -/
lemma okCount_cons_running {T E : Type} (m : Multiset (Tstate T E)) :
    okCount (Tstate.running ::ₘ m) = okCount m := by
  simp [okCount_cons, Tstate.isOk]

/-- Helper: okCount ignores a caller holding a snapshot. -/
lemma okCount_cons_loaded {T E : Type} (s : Nat) (m : Multiset (Tstate T E)) :
    okCount (Tstate.loaded s ::ₘ m) = okCount m := by
  simp [okCount_cons, Tstate.isOk]

/-- Helper: okCount counts a committed caller. -/
lemma okCount_cons_doneOk {T E : Type} (v : T) (m : Multiset (Tstate T E)) :
    okCount (Tstate.doneOk v ::ₘ m) = okCount m + 1 := by
  simp [okCount_cons, Tstate.isOk]

/-- Helper: okCount ignores a denied caller. -/
lemma okCount_cons_doneErr {T E : Type} (e : E) (m : Multiset (Tstate T E)) :
    okCount (Tstate.doneErr e ::ₘ m) = okCount m := by
  simp [okCount_cons, Tstate.isOk]

/-- Helper: each interleaved step of the burst-exhaustion scenario
preserves the invariant tying the shared tat cell to the number of
committed callers. -/
lemma gcraInv_step (t B : Nat) (ht : 1 ≤ t) (hB : 1 ≤ B)
    {c c' : Nat × Multiset (Tstate Unit NegativeDecision)}
    (hstep : casStep (gcraClosure t B) c c') (hinv : gcraInv t B c) :
    gcraInv t B c' := by
  obtain ⟨h1, h2, h3, h4⟩ := hinv
  cases hstep with
  | load σ m =>
    simp only [okCount_cons_running] at h1 h2 h3 h4
    unfold gcraInv
    dsimp only
    rw [okCount_cons_loaded]
    refine ⟨h1, h2, ?_, ?_⟩
    · intro s hs
      rcases Multiset.mem_cons.mp hs with heq | hmem
      · obtain rfl : s = σ := by injection heq
        exact ⟨okCount m, Nat.le_refl _, h1⟩
      · exact h3 s (Multiset.mem_cons_of_mem hmem)
    · intro he
      obtain ⟨e, he⟩ := he
      rcases Multiset.mem_cons.mp he with heq | hmem
      · exact absurd heq (by simp)
      · exact h4 ⟨e, Multiset.mem_cons_of_mem hmem⟩
  | commit σ σ' v m h =>
    rcases gcraClosure_cases t B σ hB with ⟨hle, hok⟩ | ⟨hgt, herr⟩
    · rw [h] at hok
      have hσ : σ' = σ + t := congrArg Prod.snd (Except.ok.inj hok)
      subst hσ
      simp only [okCount_cons_loaded] at h1 h2 h3 h4
      unfold gcraInv
      dsimp only
      rw [okCount_cons_doneOk]
      have hcount : okCount m + 1 ≤ B := by
        have hmulle : t * (okCount m + 1) ≤ t * B := by
          rw [Nat.mul_succ, ← h1]
          omega
        exact Nat.le_of_mul_le_mul_left hmulle (by omega)
      refine ⟨by rw [Nat.mul_succ, ← h1], hcount, ?_, ?_⟩
      · intro s hs
        rcases Multiset.mem_cons.mp hs with heq | hmem
        · exact absurd heq (by simp)
        · obtain ⟨j, hj, hsj⟩ := h3 s (Multiset.mem_cons_of_mem hmem)
          exact ⟨j, by omega, hsj⟩
      · intro he
        obtain ⟨e, he⟩ := he
        rcases Multiset.mem_cons.mp he with heq | hmem
        · exact absurd heq (by simp)
        · have := h4 ⟨e, Multiset.mem_cons_of_mem hmem⟩
          omega
    · rw [h] at herr
      exact absurd herr (by simp)
  | casfail σ s σ' v m hne h =>
    simp only [okCount_cons_loaded] at h1 h2 h3 h4
    unfold gcraInv
    dsimp only
    rw [okCount_cons_running]
    refine ⟨h1, h2, ?_, ?_⟩
    · intro u hu
      rcases Multiset.mem_cons.mp hu with heq | hmem
      · exact absurd heq (by simp)
      · exact h3 u (Multiset.mem_cons_of_mem hmem)
    · intro he
      obtain ⟨e, he⟩ := he
      rcases Multiset.mem_cons.mp he with heq | hmem
      · exact absurd heq (by simp)
      · exact h4 ⟨e, Multiset.mem_cons_of_mem hmem⟩
  | errstep σ s e m h =>
    rcases gcraClosure_cases t B s hB with ⟨hle, hok⟩ | ⟨hgt, herr⟩
    · rw [h] at hok
      exact absurd hok (by simp)
    · simp only [okCount_cons_loaded] at h1 h2 h3 h4
      obtain ⟨j, hj, hsj⟩ := h3 s (Multiset.mem_cons_self _ _)
      have hjB : B ≤ j := by
        have hlt : t * B < t * (j + 1) := by
          rw [Nat.mul_succ, ← hsj]
          omega
        have := Nat.lt_of_mul_lt_mul_left hlt
        omega
      have hOkB : okCount m = B := by omega
      unfold gcraInv
      dsimp only
      rw [okCount_cons_doneErr]
      refine ⟨h1, h2, ?_, fun _ => hOkB⟩
      intro u hu
      rcases Multiset.mem_cons.mp hu with heq | hmem
      · exact absurd heq (by simp)
      · exact h3 u (Multiset.mem_cons_of_mem hmem)

/-- Helper: every configuration reachable by interleaved steps from N
idle callers and a fresh cell satisfies the invariant and keeps all N
callers. -/
lemma gcraInv_reachable (t B N : Nat) (ht : 1 ≤ t) (hB : 1 ≤ B)
    {c : Nat × Multiset (Tstate Unit NegativeDecision)}
    (hreach : Relation.ReflTransGen (casStep (gcraClosure t B))
      (0, Multiset.replicate N Tstate.running) c) :
    gcraInv t B c ∧ Multiset.card c.2 = N := by
  induction hreach with
  | refl =>
    refine ⟨⟨?_, ?_, ?_, ?_⟩, by simp⟩
    · have hz : okCount (Multiset.replicate N (Tstate.running : Tstate Unit NegativeDecision)) = 0 := by
        rw [okCount, Multiset.countP_eq_zero]
        intro a ha
        rw [(Multiset.mem_replicate.mp ha).2]
        simp [Tstate.isOk]
      dsimp only
      rw [hz, Nat.mul_zero]
    · have hz : okCount (Multiset.replicate N (Tstate.running : Tstate Unit NegativeDecision)) = 0 := by
        rw [okCount, Multiset.countP_eq_zero]
        intro a ha
        rw [(Multiset.mem_replicate.mp ha).2]
        simp [Tstate.isOk]
      dsimp only
      rw [hz]
      exact Nat.zero_le _
    · intro s hs
      have := (Multiset.mem_replicate.mp hs).2
      exact absurd this (by simp)
    · intro he
      obtain ⟨e, he⟩ := he
      have := (Multiset.mem_replicate.mp he).2
      exact absurd this (by simp)
  | tail hsteps hstep ih =>
    exact ⟨gcraInv_step t B ht hB hstep ih.1, by rw [casStep_card hstep]; exact ih.2⟩

/-- C9: in the interleaving model of the lock-free store protocol, when
N callers concurrently issue a one-cell check on one key of a limiter
with burst B (parameters t ≥ 1, tau = t × B) starting from the idle
state, then however the steps interleave, once every caller has
returned, exactly min N B of them succeeded and the remaining callers
were denied — no overcount and no undercount. -/
theorem concurrent_checks_admit_exactly_burst (t B N : Nat)
    (ht : 1 ≤ t) (hB : 1 ≤ B) (σ : Nat)
    (m : Multiset (Tstate Unit NegativeDecision))
    (hreach : Relation.ReflTransGen (casStep (gcraClosure t B))
      (0, Multiset.replicate N Tstate.running) (σ, m))
    (hdone : ∀ x ∈ m, Tstate.isDone x = true) :
    Multiset.card m = N ∧ okCount m = min N B := by
  obtain ⟨⟨h1, h2, h3, h4⟩, hcard⟩ := gcraInv_reachable t B N ht hB hreach
  dsimp only at h1 h2 h3 h4 hcard
  refine ⟨hcard, ?_⟩
  by_cases herr : ∃ e, Tstate.doneErr e ∈ m
  · have hOkB : okCount m = B := h4 herr
    have hBN : B ≤ N := by
      rw [← hOkB, ← hcard]
      exact Multiset.countP_le_card _ _
    rw [hOkB, Nat.min_eq_right hBN]
  · have hall : ∀ x ∈ m, Tstate.isOk x = true := by
      intro x hx
      have hd := hdone x hx
      cases x with
      | running => exact absurd hd (by simp [Tstate.isDone])
      | loaded s => exact absurd hd (by simp [Tstate.isDone])
      | doneOk v => rfl
      | doneErr e => exact absurd ⟨e, hx⟩ herr
    have hNk : okCount m = Multiset.card m := Multiset.countP_eq_card.mpr hall
    have hNB : N ≤ B := by
      rw [← hcard, ← hNk]
      exact h2
    rw [hNk, hcard, Nat.min_eq_left hNB]

/-- Helper: trace-level guarantees of the optimistic update protocol
for an arbitrary decision closure f: the shared cell only ever evolves
by committed applications of f, each applied to the value it replaces,
and every returned outcome was produced by f. -/
lemma cas_reachable_contract {T E : Type} (f : Nat → Except E (T × Nat))
    (start N : Nat) {c : Nat × Multiset (Tstate T E)}
    (hreach : Relation.ReflTransGen (casStep f)
      (start, Multiset.replicate N Tstate.running) c) :
    fChain f start c.1 ∧
    (∀ e, Tstate.doneErr e ∈ c.2 → ∃ s, f s = .error e) ∧
    (∀ v, Tstate.doneOk v ∈ c.2 → ∃ s s2, f s = .ok (v, s2)) := by
  induction hreach with
  | refl =>
    refine ⟨fChain.refl start, ?_, ?_⟩
    · intro e he
      have := (Multiset.mem_replicate.mp he).2
      exact absurd this (by simp)
    · intro v hv
      have := (Multiset.mem_replicate.mp hv).2
      exact absurd this (by simp)
  | tail hsteps hstep ih =>
    obtain ⟨hch, herr, hok⟩ := ih
    cases hstep with
    | load σ m =>
      refine ⟨hch, ?_, ?_⟩
      · intro e he
        rcases Multiset.mem_cons.mp he with heq | hmem
        · exact absurd heq (by simp)
        · exact herr e (Multiset.mem_cons_of_mem hmem)
      · intro v hv
        rcases Multiset.mem_cons.mp hv with heq | hmem
        · exact absurd heq (by simp)
        · exact hok v (Multiset.mem_cons_of_mem hmem)
    | commit σ σ' v m h =>
      refine ⟨fChain.step hch h, ?_, ?_⟩
      · intro e he
        rcases Multiset.mem_cons.mp he with heq | hmem
        · exact absurd heq (by simp)
        · exact herr e (Multiset.mem_cons_of_mem hmem)
      · intro w hw
        rcases Multiset.mem_cons.mp hw with heq | hmem
        · obtain rfl : w = v := by injection heq
          exact ⟨σ, σ', h⟩
        · exact hok w (Multiset.mem_cons_of_mem hmem)
    | casfail σ s σ' v m hne h =>
      refine ⟨hch, ?_, ?_⟩
      · intro e he
        rcases Multiset.mem_cons.mp he with heq | hmem
        · exact absurd heq (by simp)
        · exact herr e (Multiset.mem_cons_of_mem hmem)
      · intro v2 hv
        rcases Multiset.mem_cons.mp hv with heq | hmem
        · exact absurd heq (by simp)
        · exact hok v2 (Multiset.mem_cons_of_mem hmem)
    | errstep σ s e m h =>
      refine ⟨hch, ?_, ?_⟩
      · intro e2 he
        rcases Multiset.mem_cons.mp he with heq | hmem
        · obtain rfl : e2 = e := by injection heq
          exact ⟨s, h⟩
        · exact herr e2 (Multiset.mem_cons_of_mem hmem)
      · intro v hv
        rcases Multiset.mem_cons.mp hv with heq | hmem
        · exact absurd heq (by simp)
        · exact hok v (Multiset.mem_cons_of_mem hmem)

/-- C4: in the interleaving model of measure_and_replace with an
arbitrary decision closure f, over every trace from N callers and any
initial cell value: the cell value only ever changes by a commit step,
which installs exactly the new state that f computed from the cell
value current at the commit — so a value is committed only when no
other caller has mutated the cell since the snapshot f observed, a
lost race retries against the fresh value instead of committing, and
every Err(e) outcome of a caller is a domain error produced by f and
passed through unmodified, with the cell evolving only through the
chain of committed f-applications. -/
theorem measure_and_replace_contract {T E : Type}
    (f : Nat → Except E (T × Nat)) (start N σ : Nat)
    (m : Multiset (Tstate T E))
    (hreach : Relation.ReflTransGen (casStep f)
      (start, Multiset.replicate N Tstate.running) (σ, m)) :
    fChain f start σ ∧
    (∀ e, Tstate.doneErr e ∈ m → ∃ s, f s = .error e) ∧
    (∀ v, Tstate.doneOk v ∈ m → ∃ s s2, f s = .ok (v, s2)) :=
  cas_reachable_contract f start N hreach

theorem concurrent_checks_admit_exactly_burst_witness :
    Multiset.card (Tstate.doneOk () ::ₘ (0 : Multiset (Tstate Unit NegativeDecision))) = 1 ∧
    okCount (Tstate.doneOk () ::ₘ (0 : Multiset (Tstate Unit NegativeDecision))) = min 1 1 := by
  refine concurrent_checks_admit_exactly_burst 1 1 1 (by decide) (by decide) 1 _ ?_ ?_
  · have hrep : Multiset.replicate 1 (Tstate.running : Tstate Unit NegativeDecision)
        = Tstate.running ::ₘ 0 := rfl
    have s1 : casStep (gcraClosure 1 1)
        (0, Multiset.replicate 1 (Tstate.running : Tstate Unit NegativeDecision))
        (0, Tstate.loaded 0 ::ₘ 0) := by
      rw [hrep]
      exact casStep.load 0 0
    have s2 : casStep (gcraClosure 1 1)
        (0, Tstate.loaded 0 ::ₘ 0)
        (1, Tstate.doneOk () ::ₘ 0) :=
      casStep.commit 0 1 () 0 rfl
    exact Relation.ReflTransGen.head s1 (Relation.ReflTransGen.single s2)
  · decide

theorem measure_and_replace_contract_witness :
    fChain (fun s => (Except.ok (s, s + 1) : Except Nat (Nat × Nat))) 0 1 ∧
    (∀ e, Tstate.doneErr e ∈ (Tstate.doneOk 0 ::ₘ (0 : Multiset (Tstate Nat Nat))) →
      ∃ s, (fun s => (Except.ok (s, s + 1) : Except Nat (Nat × Nat))) s = .error e) ∧
    (∀ v, Tstate.doneOk v ∈ (Tstate.doneOk 0 ::ₘ (0 : Multiset (Tstate Nat Nat))) →
      ∃ s s2, (fun s => (Except.ok (s, s + 1) : Except Nat (Nat × Nat))) s = .ok (v, s2)) := by
  refine measure_and_replace_contract
    (fun s => (Except.ok (s, s + 1) : Except Nat (Nat × Nat))) 0 1 1 _ ?_
  have hrep : Multiset.replicate 1 (Tstate.running : Tstate Nat Nat)
      = Tstate.running ::ₘ 0 := rfl
  have s1 : casStep (fun s => (Except.ok (s, s + 1) : Except Nat (Nat × Nat)))
      (0, Multiset.replicate 1 (Tstate.running : Tstate Nat Nat))
      (0, Tstate.loaded 0 ::ₘ 0) := by
    rw [hrep]
    exact casStep.load 0 0
  have s2 : casStep (fun s => (Except.ok (s, s + 1) : Except Nat (Nat × Nat)))
      (0, Tstate.loaded 0 ::ₘ 0)
      (1, Tstate.doneOk 0 ::ₘ 0) :=
    casStep.commit 0 1 0 0 rfl
  exact Relation.ReflTransGen.head s1 (Relation.ReflTransGen.single s2)
